import Mathlib

/-!
Verification development for DiskWiz (src/DiskWiz/DiskWiz.cpp), a Windows
disk-usage scanner.  The C++ program walks the filesystem from `C:\` up to a
fixed depth, registers "target" paths in a mutex-protected `ResultManager`,
computes each target's size concurrently (with a one-minute budget and a
registry-consulting early-abort heuristic for directories), and displays a
ranked top-N while computation is in flight.

Shallow embedding conventions:
- Wide strings (`std::wstring`) are modelled as `List Char`; `::towlower`
  (default C locale, ASCII case folding) is modelled by `Char.toLower`.
- A filesystem is the mutual inductive `FSNode`/`FSEntries`: regular files
  with a byte size, symlinks (opaque, never followed; `fs::is_directory` on
  them is treated as the dangling-link case, i.e. false), directories with a
  named entry list, and `err` nodes whose symlink status reads fine (the
  common permission-denied shape: `lstat` on the entry succeeds) but whose
  type and size calls — the ones the per-entry `try` blocks wrap — throw.
  A directory whose `directory_iterator` construction throws behaves, in
  every function of the program, like a directory with no entries, so it is
  not modelled separately; a failure in the middle of an enumeration,
  however, escapes the per-entry `try` blocks (a throwing
  `fs::is_symlink(entry)` status read, a failing registry read inside the
  budget check, or a throwing iterator increment) and lands in the
  enclosing function's outer `catch`, abandoning every remaining sibling.
  That truncation point is the `FSEntries.iterErr` marker, which carries
  the entries the failed enumeration never yields.
- Machine integers (`size_t` counters, `uintmax_t` sizes, `int` depths) are
  modelled as `Nat`/`Int`; the one place where `size_t` wrap-around is
  observable (`totalTargets() - 1` in the abort heuristic) is modelled
  explicitly modulo `2 ^ 64`.
- Wall-clock readings and the concurrently-changing registry are modelled by
  an oracle `clock : Nat → Obs`: the n-th per-entry budget check of a
  directory-size computation observes `clock n`, a pair of the elapsed
  milliseconds and the registry state seen by that check (each registry
  operation is under one mutex, so each check observes some linearized
  registry state).
-/

namespace DiskWiz

/-! ## Wide strings, separators, case folding -/

/-- Path separator test: Windows accepts both `\` and `/`. -/
def isSep (c : Char) : Bool := c = '\\' || c = '/'

/-- Model of `::towlower` applied characterwise (ASCII case folding,
default C locale), as in `isExcludedPath`. -/
def foldLower (s : List Char) : List Char := s.map Char.toLower

/-- Model of `pathW.rfind(exW, 0) == 0`: does `b` start with `a`? -/
def startsWithL : List Char → List Char → Bool
  | [], _ => true
  | _ :: _, [] => false
  | a :: as, b :: bs => a == b && startsWithL as bs

/-! ## Model of `fs::path::lexically_normal` (Windows, drive-letter paths)

`lexically_normal` parses an optional root name (`X:`), an optional root
directory, collapses runs of separators, removes `.` components, resolves
`..` against preceding names (leading `..` disappears below a root
directory), and rejoins with the preferred separator `\`.  Trailing
separators are not reproduced (on inputs without them the model agrees with
the C++ function, and every theorem below only evaluates it on such inputs
or applies it identically on both sides of an equivalence). -/

/-- Split a character list on path separators; separators themselves are
dropped, empty pieces are kept (they mark separator runs and boundaries). -/
def splitOnSep : List Char → List (List Char)
  | [] => [[]]
  | c :: r =>
    if isSep c then [] :: splitOnSep r
    else
      match splitOnSep r with
      | [] => [[c]]
      | h :: t => (c :: h) :: t

/-- Join path components with the preferred separator `\` (no leading or
trailing separator). -/
def joinComps : List (List Char) → List Char
  | [] => []
  | [c] => c
  | c :: cs => c ++ '\\' :: joinComps cs

/-- Resolve `..` components left to right against an accumulator stack, as
in the `lexically_normal` algorithm: a `..` cancels a preceding name; below
a root directory a leading `..` is dropped, otherwise it is kept. -/
def ddFold (hasRootDir : Bool) : List (List Char) → List (List Char) → List (List Char)
  | acc, [] => acc.reverse
  | acc, c :: r =>
    if c = ['.', '.'] then
      match acc with
      | [] => if hasRootDir then ddFold hasRootDir [] r else ddFold hasRootDir [c] r
      | a :: as => if a = ['.', '.'] then ddFold hasRootDir (c :: acc) r else ddFold hasRootDir as r
    else ddFold hasRootDir (c :: acc) r

/-- Model of `p.lexically_normal().wstring()` for drive-letter paths. -/
def normalizeStr (s : List Char) : List Char :=
  let root : List Char × List Char :=
    match s with
    | a :: ':' :: r => ([a, ':'], r)
    | _ => ([], s)
  let hasRootDir : Bool :=
    match root.2 with
    | c :: _ => isSep c
    | [] => false
  let comps0 := (splitOnSep root.2).filter (fun c => c ≠ [])
  let comps1 := comps0.filter (fun c => c ≠ ['.'])
  let comps2 := ddFold hasRootDir [] comps1
  let out := root.1 ++ (if hasRootDir then ['\\'] else []) ++ joinComps comps2
  if out = [] then ['.'] else out

/-! ## The exclusion filter -/

/-- The hardcoded deny list `EXCLUDED_PATHS` (the two `Program Files`
entries are commented out in the source). -/
def EXCLUDED_PATHS : List (List Char) :=
  [ "C:\\Windows".data,
    "C:\\ProgramData".data,
    "C:\\$Recycle.Bin".data,
    "C:\\System Volume Information".data,
    "C:\\Recovery".data,
    "C:\\pagefile.sys".data,
    "C:\\hiberfil.sys".data ]

/-- The loop body of `isExcludedPath` in the error-free case: normalize and
case-fold the argument, then test whether it starts with any (case-folded,
not re-normalized) deny-list entry. -/
def excludedCheck (p : List Char) : Bool :=
  EXCLUDED_PATHS.any (fun ex => startsWithL (foldLower ex) (foldLower (normalizeStr p)))

/-- Model of `isExcludedPath`.  `errRaised` records whether an exception is
raised inside the `try` block (e.g. allocation failure while normalizing);
the `catch (...)` handler returns `true` (fail closed). -/
def isExcludedPath (errRaised : Bool) (p : List Char) : Bool :=
  if errRaised then true else excludedCheck p

/-! ## Renderings of traversal paths

The traversal starts at `L"C:\\"`; a child found by `directory_iterator`
has path `parent / name`.  A traversal path is therefore determined by its
list of name components below the root, and its `wstring()` rendering is
`C:\` followed by the `\`-joined components. -/

/-- Rendering of a traversal path (components below `C:\`) as a wide
string, matching `fs::path::wstring` on paths built by the traversal. -/
def pathStr (comps : List (List Char)) : List Char :=
  'C' :: ':' :: '\\' :: joinComps comps

/-- A clean name component: what a real directory entry name looks like
(nonempty, no separators, not the special `.` / `..` links, which
`directory_iterator` never yields). -/
def cleanName (nm : List Char) : Prop :=
  nm ≠ [] ∧ '\\' ∉ nm ∧ '/' ∉ nm ∧ nm ≠ ['.'] ∧ nm ≠ ['.', '.']

instance (nm : List Char) : Decidable (cleanName nm) := by
  unfold cleanName; infer_instance

/-! ## Filesystem model -/

mutual
/-- A filesystem object.  `file` carries the `fs::file_size` result;
`symlink` is an opaque symbolic link (never followed); `err` is an object
whose `fs::is_symlink` status read succeeds (reporting not-a-symlink) while
the type and size calls inside the per-entry `try` blocks
(`fs::is_directory`, `fs::is_regular_file`, `fs::file_size`) throw; `dir`
carries the entries yielded by `directory_iterator` in iteration order. -/
inductive FSNode where
  | file (size : Nat)
  | symlink
  | err
  | dir (entries : FSEntries)
  deriving DecidableEq
/-- The named entry list of a directory.  `iterErr rest` marks the point
where the enumeration itself throws outside the per-entry `try` (a failing
`fs::is_symlink(entry)` status read, a failing registry read in the budget
check, or a throwing iterator increment): the exception reaches the
enclosing function's outer `catch`, so the true remaining entries `rest`
are never yielded to the loop. -/
inductive FSEntries where
  | nil
  | cons (name : List Char) (node : FSNode) (rest : FSEntries)
  | iterErr (rest : FSEntries)
  deriving DecidableEq
end

/-- Result of `fs::is_regular_file` on a node it does not throw on. -/
def isRegularFile : FSNode → Bool
  | .file _ => true
  | _ => false

/-- Names of the true directory contents, in iteration order (including
entries an `iterErr` truncation would hide from the program). -/
def entryNames : FSEntries → List (List Char)
  | .nil => []
  | .cons nm _ r => nm :: entryNames r
  | .iterErr r => entryNames r

/-- The recursive reference sum over the true directory contents, exactly
as claim C2 describes it: symlinked entries are skipped, regular files
contribute their size, subdirectories contribute their own recursive sum,
and entries whose access throws inside the per-entry `try` contribute 0.
Entries hidden behind an `iterErr` truncation still contribute their true
sizes here — which is precisely where the program's result can fall short
of this sum. -/
def sumEntries : FSEntries → Nat
  | .nil => 0
  | .cons _ (.file s) r => s + sumEntries r
  | .cons _ (.dir es) r => sumEntries es + sumEntries r
  | .cons _ .symlink r => sumEntries r
  | .cons _ .err r => sumEntries r
  | .iterErr r => sumEntries r

mutual
/-- No enumeration anywhere in this node's subtree throws outside the
per-entry `try`: no `iterErr` marker occurs below it. -/
def fullEnumN : FSNode → Bool
  | .dir es => fullEnumE es
  | _ => true
/-- No enumeration of this entry list or of any subtree below it throws
outside the per-entry `try`. -/
def fullEnumE : FSEntries → Bool
  | .nil => true
  | .cons _ nd r => fullEnumN nd && fullEnumE r
  | .iterErr _ => false
end

mutual
/-- Well-formed filesystem node: directory entry names are distinct (as on
a real filesystem) and are clean name components, recursively. -/
inductive WFNode : FSNode → Prop where
  | file : ∀ s, WFNode (.file s)
  | symlink : WFNode .symlink
  | err : WFNode .err
  | dir : ∀ es, (entryNames es).Nodup → (∀ nm ∈ entryNames es, cleanName nm) →
      WFEntries es → WFNode (.dir es)
/-- Well-formedness of every node of an entry list. -/
inductive WFEntries : FSEntries → Prop where
  | nil : WFEntries .nil
  | cons : ∀ nm nd r, WFNode nd → WFEntries r → WFEntries (.cons nm nd r)
  | iterErr : ∀ r, WFEntries r → WFEntries (.iterErr r)
end

/-! ## The result registry (`ResultManager`) -/

/-- One registry entry (`struct PathSizeInfo`).  The registry identifies a
target by its `fs::path`; traversal paths are determined by their component
list below `C:\`, which is what `path` stores.  `elapsed` is in
milliseconds. -/
structure PathSizeInfo where
  path : List (List Char)
  size : Nat
  calculated : Bool
  isPart : Bool
  elapsed : Nat
  deriving DecidableEq

/-- The `ResultManager` state: the `results` vector and the
`completedCount` atomic counter. -/
structure Manager where
  results : List PathSizeInfo
  completedCount : Nat
  deriving DecidableEq

/-- The empty manager (default construction in `main`). -/
def emptyManager : Manager := ⟨[], 0⟩

/-- Body of `ResultManager::update`: walk the vector for the first entry
with this path (`std::find_if`); if it exists and is not yet calculated,
overwrite its fields and report a completion transition.  Returns the new
vector and whether `completedCount` was incremented. -/
def updateGo (p : List (List Char)) (s : Nat) (b : Bool) (t : Nat) :
    List PathSizeInfo → List PathSizeInfo × Bool
  | [] => ([], false)
  | info :: rest =>
    if info.path = p then
      if info.calculated then (info :: rest, false)
      else (⟨info.path, s, true, b, t⟩ :: rest, true)
    else
      let r := updateGo p s b t rest
      (info :: r.1, r.2)

/-- Model of `ResultManager::update` (the completion write). -/
def update (m : Manager) (p : List (List Char)) (s : Nat) (b : Bool) (t : Nat) : Manager :=
  let r := updateGo p s b t m.results
  ⟨r.1, m.completedCount + if r.2 then 1 else 0⟩

/-- Model of `ResultManager::addTarget`: append a pending entry
(`PathSizeInfo(p, 0, false)` has `isPartial = false`, `elapsed = 0`). -/
def addTarget (m : Manager) (p : List (List Char)) : Manager :=
  ⟨m.results ++ [⟨p, 0, false, false, 0⟩], m.completedCount⟩

/-- Descending insertion by `size`, placing `x` before the first entry it
strictly beats; models one sorting pass consistent with the strict-weak
comparator `a.size > b.size` handed to `std::sort` (which guarantees
exactly: the output is a permutation of the input, pairwise nonincreasing
in `size`). -/
def insertBySize (x : PathSizeInfo) : List PathSizeInfo → List PathSizeInfo
  | [] => [x]
  | y :: ys => if y.size < x.size then x :: y :: ys else y :: insertBySize x ys

/-- Sort a copy of the results by size, descending (the postcondition of
`std::sort` with comparator `a.size > b.size`). -/
def sortBySizeDesc : List PathSizeInfo → List PathSizeInfo
  | [] => []
  | x :: xs => insertBySize x (sortBySizeDesc xs)

/-- Model of `ResultManager::getTopN`: sort a snapshot by size descending
and truncate to `n` entries. -/
def getTopN (m : Manager) (n : Nat) : List PathSizeInfo :=
  (sortBySizeDesc m.results).take n

/-- Model of `ResultManager::totalTargets`. -/
def totalTargets (m : Manager) : Nat := m.results.length

/-- Model of `ResultManager::completedTargets`. -/
def completedTargets (m : Manager) : Nat := m.completedCount

/-- Registry states reachable through the `ResultManager` interface from
default construction. -/
inductive Reachable : Manager → Prop where
  | init : Reachable emptyManager
  | add : ∀ m p, Reachable m → Reachable (addTarget m p)
  | upd : ∀ m p s b t, Reachable m → Reachable (update m p s b t)

/-! ## The target selector (`isTargetUnit`) -/

/-- Model of `isTargetUnit(path, depth)`.  `node` is the filesystem object
at the path and `comps` its components below the root, so the
`relative_path()` component count is `comps.length`.  Symlinks are rejected
first; at `depth == 0` only regular files qualify; otherwise the path
qualifies at exact depth, or short of it if it is a regular file.  On an
`err` node the `fs::is_symlink` read succeeds (false) but every
`fs::is_regular_file` call throws into the `catch`, which returns `false`;
since `pathDepth == depth` short-circuits the `||` before any stat, an
`err` object at exactly the target depth still qualifies, while at
`depth == 0` or below the target depth the stat throw yields `false`. -/
def isTargetUnit (node : FSNode) (comps : List (List Char)) (depth : Int) : Bool :=
  match node with
  | .symlink => false
  | .err => if depth = 0 then false else (comps.length : Int) == depth
  | _ =>
    if depth = 0 then isRegularFile node
    else (comps.length : Int) == depth ||
      (decide ((comps.length : Int) < depth) && isRegularFile node)

/-! ## The size engine (`calculateDirectorySizeWithTimeout`) -/

/-- What one per-entry budget check observes: the elapsed wall-clock
milliseconds since the computation's `startTime`, and the registry state
the check's `ResultManager` calls see. -/
structure Obs where
  elapsed : Nat
  mgr : Manager

/-- The fixed one-minute budget, in milliseconds. -/
def timeLimitMs : Nat := 60000

/-- The registry part of the abort condition:
`completedTargets() == totalTargets() - 1 && (top.empty() || total > top[0].size)`,
with the `size_t` subtraction taken modulo `2 ^ 64`. -/
def cppAbortCond (m : Manager) (total : Nat) : Bool :=
  (completedTargets m == (totalTargets m + (2 ^ 64 - 1)) % 2 ^ 64) &&
    (match getTopN m 1 with
     | [] => true
     | t :: _ => decide (t.size < total))

/-- The whole per-entry check: the budget must have elapsed and the
registry condition must hold for the enumeration to abort. -/
def checkAbort (o : Obs) (total : Nat) : Bool :=
  decide (timeLimitMs ≤ o.elapsed) && cppAbortCond o.mgr total

/-- Result of a directory-size computation: the accumulated `total`, the
`isPartial` flag, the index of the next unconsumed clock observation, and
— as an instrumentation of the `isPartial = true; break;` statement — the
observation index and accumulated total of the first abort event, if any. -/
structure CalcRes where
  total : Nat
  isPart : Bool
  next : Nat
  abortHit : Option (Nat × Nat)
  deriving DecidableEq

/-- The `for (entry : directory_iterator(dir))` loop of
`calculateDirectorySizeWithTimeout`, carrying the local accumulator
`total` and consuming clock observations at each per-entry check.
Symlinked entries are skipped before the check; on an abort the loop
breaks, returning the accumulated total marked partial; a subdirectory
contributes its recursive result (`total += size; isPartial |= partial`);
a regular file contributes `fs::file_size`; an entry whose stat throws
inside the per-entry `try` contributes nothing (`catch (...) {}`) and the
loop continues; an enumeration failure outside that `try` (`iterErr`)
escapes to the function's outer `catch`, which returns the accumulated
total and the partial flag as they stand — the abandoned remainder is
never visited and no abort event is recorded.  The C++ binds the
subdirectory's recursive result once; being pure, the model re-projects
the identical recursive call instead of binding it. -/
def calcEntries (clock : Nat → Obs) : FSEntries → Nat → Nat → CalcRes
  | .nil, total, _idx => ⟨total, false, _idx, none⟩
  | .cons _ .symlink rest, total, idx => calcEntries clock rest total idx
  | .cons _ (.file s) rest, total, idx =>
    if checkAbort (clock idx) total then ⟨total, true, idx + 1, some (idx, total)⟩
    else calcEntries clock rest (total + s) (idx + 1)
  | .cons _ .err rest, total, idx =>
    if checkAbort (clock idx) total then ⟨total, true, idx + 1, some (idx, total)⟩
    else calcEntries clock rest total (idx + 1)
  | .cons _ (.dir es) rest, total, idx =>
    if checkAbort (clock idx) total then ⟨total, true, idx + 1, some (idx, total)⟩
    else
      ⟨(calcEntries clock rest (total + (calcEntries clock es 0 (idx + 1)).total)
          (calcEntries clock es 0 (idx + 1)).next).total,
       (calcEntries clock es 0 (idx + 1)).isPart ||
         (calcEntries clock rest (total + (calcEntries clock es 0 (idx + 1)).total)
           (calcEntries clock es 0 (idx + 1)).next).isPart,
       (calcEntries clock rest (total + (calcEntries clock es 0 (idx + 1)).total)
         (calcEntries clock es 0 (idx + 1)).next).next,
       Option.orElse (calcEntries clock es 0 (idx + 1)).abortHit
         (fun _ =>
           (calcEntries clock rest (total + (calcEntries clock es 0 (idx + 1)).total)
             (calcEntries clock es 0 (idx + 1)).next).abortHit)⟩
  | .iterErr _, total, idx => ⟨total, false, idx, none⟩

/-- Model of `calculateDirectorySizeWithTimeout(dir, startTime, manager)`.
On a non-directory the `directory_iterator` constructor throws and the
outer `catch` returns the zero-initialized `{0, false}`. -/
def calculateDirectorySizeWithTimeout (clock : Nat → Obs) (node : FSNode) : CalcRes :=
  match node with
  | .dir es => calcEntries clock es 0 0
  | _ => ⟨0, false, 0, none⟩

/-! ## The target collector (`collectTargetPaths`) -/

/-- The pruning guard of `collectTargetPaths`: excluded path or depth past
the maximum (error-free exclusion check; an exclusion-side exception would
only prune more). -/
def collectGuard (comps : List (List Char)) (currentDepth maxDepth : Int) : Bool :=
  isExcludedPath false (pathStr comps) || decide (maxDepth < currentDepth)

mutual
/-- Model of `collectTargetPaths(root, currentDepth, maxDepth, manager)`.
`node` is the filesystem object at the path with components `comps`.  After
the guard, a target unit is registered; then, for a directory strictly
above the depth bound, each child is visited (a throwing
`directory_iterator` yields an empty entry list in the model; the
`fs::is_directory` throw on an `err` node lands in the outer `catch` after
the — necessarily negative — target check, leaving the manager as is). -/
def collectTargetPaths : FSNode → List (List Char) → Int → Int → Manager → Manager
  | .file s, comps, currentDepth, maxDepth, m =>
    if collectGuard comps currentDepth maxDepth then m
    else if isTargetUnit (.file s) comps maxDepth then addTarget m comps else m
  | .symlink, comps, currentDepth, maxDepth, m =>
    if collectGuard comps currentDepth maxDepth then m
    else if isTargetUnit .symlink comps maxDepth then addTarget m comps else m
  | .err, comps, currentDepth, maxDepth, m =>
    if collectGuard comps currentDepth maxDepth then m
    else if isTargetUnit .err comps maxDepth then addTarget m comps else m
  | .dir es, comps, currentDepth, maxDepth, m =>
    if collectGuard comps currentDepth maxDepth then m
    else if decide (currentDepth < maxDepth) then
      collectChildren es comps currentDepth maxDepth
        (if isTargetUnit (.dir es) comps maxDepth then addTarget m comps else m)
    else if isTargetUnit (.dir es) comps maxDepth then addTarget m comps else m
/-- The `for (entry : directory_iterator(root))` loop of
`collectTargetPaths`: visit each child at `currentDepth + 1`.  An
enumeration failure (`iterErr`) escapes to `collectTargetPaths`' own
`catch`, abandoning the remaining children with the manager as it stands. -/
def collectChildren : FSEntries → List (List Char) → Int → Int → Manager → Manager
  | .nil, _, _, _, m => m
  | .cons nm child rest, comps, currentDepth, maxDepth, m =>
    collectChildren rest comps currentDepth maxDepth
      (collectTargetPaths child (comps ++ [nm]) (currentDepth + 1) maxDepth m)
  | .iterErr _, _, _, _, m => m
end

/-- Model of the `std::find_if` lookup used by `ResultManager::update`:
first entry whose path equals `p`. -/
def findPath (p : List (List Char)) : List PathSizeInfo → Option PathSizeInfo
  | [] => none
  | info :: rest => if info.path = p then some info else findPath p rest

/-- The paths a `collectTargetPaths` call starting from an empty manager
registers, in registration order (every call appends the same entries to
whatever manager it is given; see `collectTP_results_append`). -/
def newPaths (node : FSNode) (comps : List (List Char)) (currentDepth maxDepth : Int) :
    List (List (List Char)) :=
  (collectTargetPaths node comps currentDepth maxDepth emptyManager).results.map (fun e => e.path)

/-- The paths a `collectChildren` call starting from an empty manager
registers. -/
def newPathsC (es : FSEntries) (comps : List (List Char)) (currentDepth maxDepth : Int) :
    List (List (List Char)) :=
  (collectChildren es comps currentDepth maxDepth emptyManager).results.map (fun e => e.path)

/-- The selection rule exactly as claim C5 states it: a disjunction of
(maxDepth 0 and regular file), (depth from root equals maxDepth,
regardless of type), and (depth below maxDepth and regular file). -/
def claimC5Formula (node : FSNode) (comps : List (List Char)) (depth : Int) : Prop :=
  (depth = 0 ∧ isRegularFile node = true) ∨
  ((comps.length : Int) = depth) ∨
  ((comps.length : Int) < depth ∧ isRegularFile node = true)

/-! ## Registry lemmas -/

theorem updateGo_of_found_calculated (p : List (List Char)) (s : Nat) (b : Bool) (t : Nat) :
    ∀ (l : List PathSizeInfo) (e : PathSizeInfo),
      findPath p l = some e → e.calculated = true → updateGo p s b t l = (l, false) := by
  intro l
  induction l with
  | nil => intro e he; simp [findPath] at he
  | cons info rest ih =>
    intro e he hc
    by_cases hp : info.path = p
    · simp [findPath, hp] at he
      subst he
      simp [updateGo, hp, hc]
    · simp [findPath, hp] at he
      simp [updateGo, hp, ih e he hc]

theorem updateGo_of_not_found (p : List (List Char)) (s : Nat) (b : Bool) (t : Nat) :
    ∀ (l : List PathSizeInfo), findPath p l = none → updateGo p s b t l = (l, false) := by
  intro l
  induction l with
  | nil => intro _; simp [updateGo]
  | cons info rest ih =>
    intro he
    by_cases hp : info.path = p
    · simp [findPath, hp] at he
    · simp [findPath, hp] at he
      simp [updateGo, hp, ih he]

theorem mem_updateGo (p : List (List Char)) (s : Nat) (b : Bool) (t : Nat) :
    ∀ (l : List PathSizeInfo) (e : PathSizeInfo),
      e ∈ (updateGo p s b t l).1 → e ∈ l ∨ e = ⟨p, s, true, b, t⟩ := by
  intro l
  induction l with
  | nil => intro e he; simp [updateGo] at he
  | cons info rest ih =>
    intro e he
    by_cases hp : info.path = p
    · by_cases hc : info.calculated
      · simp [updateGo, hp, hc] at he
        rcases he with h | h
        · exact Or.inl (by simp [h])
        · exact Or.inl (by simp [h])
      · simp [updateGo, hp, hc] at he
        rcases he with h | h
        · subst h; exact Or.inr (by simp [hp])
        · exact Or.inl (by simp [h])
    · simp [updateGo, hp] at he
      rcases he with h | h
      · exact Or.inl (by simp [h])
      · rcases ih e h with h1 | h1
        · exact Or.inl (by simp [h1])
        · exact Or.inr h1

theorem countCalc_updateGo (p : List (List Char)) (s : Nat) (b : Bool) (t : Nat) :
    ∀ (l : List PathSizeInfo),
      (updateGo p s b t l).1.countP (fun e => e.calculated) =
        l.countP (fun e => e.calculated) + ((updateGo p s b t l).2.toNat) := by
  intro l
  induction l with
  | nil => simp [updateGo]
  | cons info rest ih =>
    by_cases hp : info.path = p
    · by_cases hc : info.calculated
      · simp [updateGo, hp, hc]
      · simp [updateGo, hp, hc, List.countP_cons]
    · simp only [updateGo, hp, if_neg hp]
      simp [List.countP_cons, ih]
      omega

theorem length_updateGo (p : List (List Char)) (s : Nat) (b : Bool) (t : Nat) :
    ∀ (l : List PathSizeInfo), (updateGo p s b t l).1.length = l.length := by
  intro l
  induction l with
  | nil => simp [updateGo]
  | cons info rest ih =>
    by_cases hp : info.path = p
    · by_cases hc : info.calculated <;> simp [updateGo, hp, hc]
    · simp [updateGo, hp, ih]

theorem reachable_completedCount (m : Manager) (h : Reachable m) :
    m.completedCount = m.results.countP (fun e => e.calculated) := by
  induction h with
  | init => simp [emptyManager]
  | add m p _ ih => simp [addTarget, List.countP_append, ih, List.countP_cons]
  | upd m p s b t _ ih =>
    simp only [update, countCalc_updateGo, ih]
    cases hb : (updateGo p s b t m.results).2 <;> simp [hb]

theorem reachable_completed_le (m : Manager) (h : Reachable m) :
    completedTargets m ≤ totalTargets m := by
  rw [completedTargets, totalTargets, reachable_completedCount m h]
  exact List.countP_le_length _

theorem reachable_uncalc_size_zero (m : Manager) (h : Reachable m) :
    ∀ e ∈ m.results, e.calculated = false → e.size = 0 := by
  induction h with
  | init => simp [emptyManager]
  | add m p _ ih =>
    intro e he hc
    simp only [addTarget, List.mem_append, List.mem_singleton] at he
    rcases he with h1 | h1
    · exact ih e h1 hc
    · simp [h1]
  | upd m p s b t _ ih =>
    intro e he hc
    simp only [update] at he
    rcases mem_updateGo p s b t m.results e he with h1 | h1
    · exact ih e h1 hc
    · rw [h1] at hc; simp at hc

/-! ## Sorting lemmas for `getTopN` -/

theorem mem_insertBySize (x : PathSizeInfo) :
    ∀ (l : List PathSizeInfo) (e : PathSizeInfo), e ∈ insertBySize x l ↔ e = x ∨ e ∈ l := by
  intro l
  induction l with
  | nil => intro e; simp [insertBySize]
  | cons y ys ih =>
    intro e
    by_cases hc : y.size < x.size
    · simp [insertBySize, hc]
    · simp [insertBySize, hc, ih]
      tauto

theorem mem_sortBySizeDesc :
    ∀ (l : List PathSizeInfo) (e : PathSizeInfo), e ∈ sortBySizeDesc l ↔ e ∈ l := by
  intro l
  induction l with
  | nil => intro e; simp [sortBySizeDesc]
  | cons y ys ih =>
    intro e
    simp [sortBySizeDesc, mem_insertBySize, ih]

theorem pairwise_insertBySize (x : PathSizeInfo) :
    ∀ (l : List PathSizeInfo),
      l.Pairwise (fun a b => b.size ≤ a.size) →
      (insertBySize x l).Pairwise (fun a b => b.size ≤ a.size) := by
  intro l
  induction l with
  | nil => intro _; simp [insertBySize]
  | cons y ys ih =>
    intro h
    rw [List.pairwise_cons] at h
    by_cases hc : y.size < x.size
    · rw [insertBySize, if_pos hc]
      refine List.Pairwise.cons ?_ (List.Pairwise.cons h.1 h.2)
      intro z hz
      rcases List.mem_cons.mp hz with h1 | h1
      · subst h1; omega
      · have := h.1 z h1; omega
    · rw [insertBySize, if_neg hc]
      refine List.Pairwise.cons ?_ (ih h.2)
      intro z hz
      rcases (mem_insertBySize x ys z).mp hz with h1 | h1
      · subst h1; omega
      · exact h.1 z h1

theorem pairwise_sortBySizeDesc :
    ∀ (l : List PathSizeInfo), (sortBySizeDesc l).Pairwise (fun a b => b.size ≤ a.size) := by
  intro l
  induction l with
  | nil => simp [sortBySizeDesc]
  | cons y ys ih => exact pairwise_insertBySize y _ ih

theorem length_insertBySize (x : PathSizeInfo) :
    ∀ (l : List PathSizeInfo), (insertBySize x l).length = l.length + 1 := by
  intro l
  induction l with
  | nil => simp [insertBySize]
  | cons y ys ih =>
    by_cases hc : y.size < x.size <;> simp [insertBySize, hc, ih]

theorem length_sortBySizeDesc :
    ∀ (l : List PathSizeInfo), (sortBySizeDesc l).length = l.length := by
  intro l
  induction l with
  | nil => rfl
  | cons y ys ih => simp [sortBySizeDesc, length_insertBySize, ih]

theorem getTopN_one_of_ne_nil (m : Manager) (h : m.results ≠ []) :
    ∃ t, getTopN m 1 = [t] := by
  rw [getTopN]
  cases hs : sortBySizeDesc m.results with
  | nil =>
    exfalso
    have := length_sortBySizeDesc m.results
    rw [hs] at this
    simp at this
    exact h (List.eq_nil_of_length_eq_zero this.symm)
  | cons t rest => exact ⟨t, by simp⟩

/-! ## Prefix lemmas -/

theorem startsWithL_iff : ∀ (a b : List Char), startsWithL a b = true ↔ ∃ t, b = a ++ t := by
  intro a
  induction a with
  | nil => intro b; simp [startsWithL]
  | cons c cs ih =>
    intro b
    cases b with
    | nil => simp [startsWithL]
    | cons d ds =>
      simp only [startsWithL, Bool.and_eq_true, beq_iff_eq, ih]
      constructor
      · rintro ⟨h1, t, h2⟩; exact ⟨t, by simp [h1, h2]⟩
      · rintro ⟨t, h⟩
        simp only [List.cons_append, List.cons.injEq] at h
        exact ⟨h.1.symm, t, h.2⟩

theorem startsWithL_append_right (a b c : List Char) (h : startsWithL a b = true) :
    startsWithL a (b ++ c) = true := by
  rw [startsWithL_iff] at h ⊢
  rcases h with ⟨t, ht⟩
  exact ⟨t ++ c, by simp [ht]⟩

theorem normalizeStr_excluded_fixed : ∀ ex ∈ EXCLUDED_PATHS, normalizeStr ex = ex := by decide

/-! ## Claim theorems: registry (C3, C10, C4) -/

/-- C3: a completion-write for a path whose (first) registry entry is
already calculated is a no-op: the whole manager state — every entry's
fields and the completed counter — is unchanged, so the `calculated` flag
can transition false→true at most once per entry. -/
theorem update_noop_when_calculated (m : Manager) (p : List (List Char))
    (s : Nat) (b : Bool) (t : Nat) (e : PathSizeInfo)
    (hfind : findPath p m.results = some e) (hcalc : e.calculated = true) :
    update m p s b t = m := by
  have h := updateGo_of_found_calculated p s b t m.results e hfind hcalc
  cases m with
  | mk results cc => simp_all [update]

/-- Witness for C3 on a concrete two-entry registry whose entry for the
path is already calculated. -/
theorem update_noop_when_calculated_witness :
    update (update (addTarget (addTarget emptyManager [['a']]) [['b']]) [['a']] 3 false 50)
        [['a']] 7 true 20 =
      update (addTarget (addTarget emptyManager [['a']]) [['b']]) [['a']] 3 false 50 :=
  update_noop_when_calculated _ _ 7 true 20 ⟨[['a']], 3, true, false, 50⟩ (by decide) (by decide)

/-- C10: a completion-write for a path that was never registered is a
silent no-op: no entry is created or changed and the completed counter is
unchanged. -/
theorem update_noop_when_unregistered (m : Manager) (p : List (List Char))
    (s : Nat) (b : Bool) (t : Nat)
    (hfind : findPath p m.results = none) :
    update m p s b t = m := by
  have h := updateGo_of_not_found p s b t m.results hfind
  cases m with
  | mk results cc => simp_all [update]

/-- Witness for C10 on a concrete registry without the written path. -/
theorem update_noop_when_unregistered_witness :
    update (addTarget emptyManager [['a']]) [['z']] 7 true 20 =
      addTarget emptyManager [['a']] :=
  update_noop_when_unregistered _ _ 7 true 20 (by decide)

/-- C4: on every reachable registry state, `getTopN n` returns at most `n`
entries, each a copy of a registered entry, pairwise nonincreasing in size,
and every uncalculated entry in the snapshot carries size 0. -/
theorem getTopN_spec (m : Manager) (n : Nat) (h : Reachable m) :
    (getTopN m n).length ≤ n ∧
    (∀ e ∈ getTopN m n, e ∈ m.results) ∧
    (getTopN m n).Pairwise (fun a b => b.size ≤ a.size) ∧
    (∀ e ∈ getTopN m n, e.calculated = false → e.size = 0) := by
  have hmem : ∀ e ∈ getTopN m n, e ∈ m.results := by
    intro e he
    exact (mem_sortBySizeDesc m.results e).mp (List.take_subset n _ he)
  refine ⟨?_, hmem, ?_, ?_⟩
  · rw [getTopN]
    exact (List.length_take n _).le.trans (Nat.min_le_left _ _)
  · exact (pairwise_sortBySizeDesc m.results).sublist (List.take_sublist n _)
  · intro e he
    exact reachable_uncalc_size_zero m h e (hmem e he)

/-- Witness for C4 on a concrete reachable three-step registry. -/
theorem getTopN_spec_witness :
    (getTopN (update (addTarget (addTarget emptyManager [['a']]) [['b']]) [['a']] 5 false 100) 2).length ≤ 2 ∧
    (∀ e ∈ getTopN (update (addTarget (addTarget emptyManager [['a']]) [['b']]) [['a']] 5 false 100) 2,
      e ∈ (update (addTarget (addTarget emptyManager [['a']]) [['b']]) [['a']] 5 false 100).results) ∧
    (getTopN (update (addTarget (addTarget emptyManager [['a']]) [['b']]) [['a']] 5 false 100) 2).Pairwise
      (fun a b => b.size ≤ a.size) ∧
    (∀ e ∈ getTopN (update (addTarget (addTarget emptyManager [['a']]) [['b']]) [['a']] 5 false 100) 2,
      e.calculated = false → e.size = 0) :=
  getTopN_spec _ 2 (Reachable.upd _ _ _ _ _ (Reachable.add _ _ (Reachable.add _ _ Reachable.init)))

/-! ## Claim theorems: exclusion filter (C9) -/

/-- C9: `isExcludedPath` returns true exactly when the lexically
normalized, case-folded path begins with some (normalized, case-folded)
deny-list entry — the deny-list entries are their own normal forms — and
whenever an error is raised inside its `try` block it returns true (fail
closed) instead of propagating. -/
theorem isExcludedPath_spec (p : List Char) :
    (isExcludedPath false p = true ↔
      ∃ ex ∈ EXCLUDED_PATHS, ∃ r,
        foldLower (normalizeStr p) = foldLower (normalizeStr ex) ++ r) ∧
    isExcludedPath true p = true := by
  constructor
  · rw [isExcludedPath, if_neg (by simp), excludedCheck, List.any_eq_true]
    constructor
    · rintro ⟨ex, hex, hs⟩
      refine ⟨ex, hex, ?_⟩
      rw [normalizeStr_excluded_fixed ex hex]
      exact (startsWithL_iff _ _).mp hs
    · rintro ⟨ex, hex, r, hr⟩
      refine ⟨ex, hex, (startsWithL_iff _ _).mpr ⟨r, ?_⟩⟩
      rw [← normalizeStr_excluded_fixed ex hex]
      exact hr
  · rfl

/-! ## Claim theorems: target selector (C5) -/

/-- C5 counterexample: at `maxDepth = 0` the root directory (depth 0, a
non-symlink directory whose type checks succeed) satisfies the claim's
second disjunct (depth from root equals maxDepth) but `isTargetUnit`
returns false — the `depth == 0` branch admits only regular files. -/
theorem isTargetUnit_claim_counterexample :
    claimC5Formula (.dir .nil) [] 0 ∧ isTargetUnit (.dir .nil) [] 0 = false := by
  constructor
  · exact Or.inr (Or.inl (by decide))
  · decide

/-- C5 amended: for every non-symlink, non-throwing path, `isTargetUnit` is
true exactly when maxDepth is 0 and the path is a regular file, or maxDepth
is nonzero and the path's depth from the root equals maxDepth (regardless
of type), or the path's depth is strictly below maxDepth and the path is a
regular file. -/
theorem isTargetUnit_amended (node : FSNode) (comps : List (List Char)) (depth : Int)
    (h1 : node ≠ .symlink) (h2 : node ≠ .err) :
    isTargetUnit node comps depth = true ↔
      ((depth = 0 ∧ isRegularFile node = true) ∨
       (depth ≠ 0 ∧ (comps.length : Int) = depth) ∨
       ((comps.length : Int) < depth ∧ isRegularFile node = true)) := by
  have hlen : (0 : Int) ≤ (comps.length : Int) := by positivity
  cases node with
  | symlink => exact absurd rfl h1
  | err => exact absurd rfl h2
  | file s =>
    by_cases hd : depth = 0
    · subst hd
      simp [isTargetUnit, isRegularFile]
    · simp [isTargetUnit, isRegularFile, hd]
  | dir es =>
    by_cases hd : depth = 0
    · subst hd
      simp [isTargetUnit, isRegularFile]
    · simp [isTargetUnit, isRegularFile, hd]

/-- Witness for the amended C5 at a concrete regular file directly under
the root with `maxDepth = 2`. -/
theorem isTargetUnit_amended_witness :
    isTargetUnit (.file 9) [['a']] 2 = true ↔
      (((2 : Int) = 0 ∧ isRegularFile (.file 9) = true) ∨
       ((2 : Int) ≠ 0 ∧ (([['a']] : List (List Char)).length : Int) = 2) ∨
       ((([['a']] : List (List Char)).length : Int) < 2 ∧ isRegularFile (.file 9) = true)) :=
  isTargetUnit_amended (.file 9) [['a']] 2 (by decide) (by decide)

/-! ## Claim theorems: symlink invariant (C7) -/

/-- C7: a symlink is never a target unit, visiting a symlink registers
nothing, and during directory size accumulation a symlinked entry is
skipped entirely — not descended into, not counted, not even consuming a
budget check. -/
theorem symlink_invariant :
    (∀ comps depth, isTargetUnit .symlink comps depth = false) ∧
    (∀ comps currentDepth maxDepth m,
      collectTargetPaths .symlink comps currentDepth maxDepth m = m) ∧
    (∀ clock nm rest total idx,
      calcEntries clock (.cons nm .symlink rest) total idx = calcEntries clock rest total idx) := by
  refine ⟨fun comps depth => rfl, fun comps currentDepth maxDepth m => ?_, fun _ _ _ _ _ => rfl⟩
  rw [collectTargetPaths]
  split <;> simp [isTargetUnit]

/-! ## Size-engine lemmas (C2, C1) -/

theorem orElse_some_elim {α : Type} (a : Option α) (f : Unit → Option α) (x : α)
    (h : Option.orElse a f = some x) : a = some x ∨ (a = none ∧ f () = some x) := by
  cases a with
  | none => exact Or.inr ⟨rfl, h⟩
  | some y => exact Or.inl h

theorem calcEntries_total_of_not_partial (clock : Nat → Obs) :
    ∀ (es : FSEntries) (total idx : Nat),
      fullEnumE es = true →
      (calcEntries clock es total idx).isPart = false →
      (calcEntries clock es total idx).total = total + sumEntries es := by
  intro es total idx
  induction es, total, idx using calcEntries.induct clock with
  | case1 total idx => intro _ _; simp [calcEntries, sumEntries]
  | case2 nm rest total idx ih =>
    intro hfull h
    rw [calcEntries] at h ⊢
    rw [sumEntries]
    exact ih (by simpa [fullEnumE, fullEnumN] using hfull) h
  | case3 nm s rest total idx habort =>
    intro _ h
    rw [calcEntries, if_pos habort] at h
    simp at h
  | case4 nm s rest total idx habort ih =>
    intro hfull h
    rw [calcEntries, if_neg habort] at h ⊢
    rw [sumEntries]
    have := ih (by simpa [fullEnumE, fullEnumN] using hfull) h
    omega
  | case5 nm rest total idx habort =>
    intro _ h
    rw [calcEntries, if_pos habort] at h
    simp at h
  | case6 nm rest total idx habort ih =>
    intro hfull h
    rw [calcEntries, if_neg habort] at h ⊢
    rw [sumEntries]
    exact ih (by simpa [fullEnumE, fullEnumN] using hfull) h
  | case7 nm es rest total idx habort =>
    intro _ h
    rw [calcEntries, if_pos habort] at h
    simp at h
  | case8 nm es rest total idx habort ih1 ih2 =>
    intro hfull h
    rw [calcEntries, if_neg habort] at h ⊢
    simp only [Bool.or_eq_false_iff] at h
    rw [sumEntries]
    rw [fullEnumE, fullEnumN, Bool.and_eq_true] at hfull
    have h1 := ih1 hfull.1 h.1
    have h2 := ih2 hfull.2 h.2
    dsimp only
    omega
  | case9 r total idx =>
    intro hfull _
    rw [fullEnumE] at hfull
    simp at hfull

/-- C2 counterexample: an enumeration that throws outside the per-entry
`try` after yielding a 5-byte file abandons a 7-byte sibling via the outer
`catch`; the result is not marked partial, yet its total (5) is short of
the claim's recursive sum (12). -/
theorem calc_size_claim_counterexample :
    (calculateDirectorySizeWithTimeout (fun _ => ⟨0, emptyManager⟩)
        (.dir (.cons ['a'] (.file 5) (.iterErr (.cons ['b'] (.file 7) .nil))))).isPart =
      false ∧
    ¬ (calculateDirectorySizeWithTimeout (fun _ => ⟨0, emptyManager⟩)
        (.dir (.cons ['a'] (.file 5) (.iterErr (.cons ['b'] (.file 7) .nil))))).total =
      sumEntries (.cons ['a'] (.file 5) (.iterErr (.cons ['b'] (.file 7) .nil))) := by
  constructor
  · decide
  · decide

/-- C2 amended: a directory-size computation that finishes unaborted
(result not marked partial) and whose enumerations all run to completion —
no failure escapes the per-entry `try` into an outer `catch` anywhere in
the subtree — reports exactly the recursive reference sum: file sizes plus
recursive subdirectory totals over all non-symlink entries, with 0 for
entries whose access throws inside the per-entry `try`; in particular,
with no error nodes in the subtree this is the true total byte size
excluding symlinked entries. -/
theorem calc_size_exact_when_not_partial (clock : Nat → Obs) (es : FSEntries)
    (hfull : fullEnumE es = true)
    (h : (calculateDirectorySizeWithTimeout clock (.dir es)).isPart = false) :
    (calculateDirectorySizeWithTimeout clock (.dir es)).total = sumEntries es := by
  rw [calculateDirectorySizeWithTimeout] at h ⊢
  simpa using calcEntries_total_of_not_partial clock es 0 0 hfull h

/-- Witness for the amended C2: a concrete fully-enumerable subtree with a
file, a subdirectory, a symlink and a throwing entry, under a clock that
never reaches the budget. -/
theorem calc_size_exact_when_not_partial_witness :
    (calculateDirectorySizeWithTimeout (fun _ => ⟨0, emptyManager⟩)
        (.dir (.cons ['a'] (.file 5)
          (.cons ['d'] (.dir (.cons ['e'] (.file 3) .nil))
            (.cons ['s'] .symlink (.cons ['x'] .err .nil)))))).total =
      sumEntries (.cons ['a'] (.file 5)
        (.cons ['d'] (.dir (.cons ['e'] (.file 3) .nil))
          (.cons ['s'] .symlink (.cons ['x'] .err .nil)))) :=
  calc_size_exact_when_not_partial _ _ (by decide) (by decide)

theorem abortHit_of_isPart (clock : Nat → Obs) :
    ∀ (es : FSEntries) (total idx : Nat),
      (calcEntries clock es total idx).isPart = true →
      ∃ i acc, (calcEntries clock es total idx).abortHit = some (i, acc) := by
  intro es total idx
  induction es, total, idx using calcEntries.induct clock with
  | case1 total idx => intro h; simp [calcEntries] at h
  | case2 nm rest total idx ih =>
    intro h
    rw [calcEntries] at h ⊢
    exact ih h
  | case3 nm s rest total idx habort =>
    intro _
    rw [calcEntries, if_pos habort]
    exact ⟨idx, total, rfl⟩
  | case4 nm s rest total idx habort ih =>
    intro h
    rw [calcEntries, if_neg habort] at h ⊢
    exact ih h
  | case5 nm rest total idx habort =>
    intro _
    rw [calcEntries, if_pos habort]
    exact ⟨idx, total, rfl⟩
  | case6 nm rest total idx habort ih =>
    intro h
    rw [calcEntries, if_neg habort] at h ⊢
    exact ih h
  | case7 nm es rest total idx habort =>
    intro _
    rw [calcEntries, if_pos habort]
    exact ⟨idx, total, rfl⟩
  | case8 nm es rest total idx habort ih1 ih2 =>
    intro h
    rw [calcEntries, if_neg habort] at h ⊢
    simp only [Bool.or_eq_true] at h
    cases hrs : (calcEntries clock es 0 (idx + 1)).abortHit with
    | some ia => exact ⟨ia.1, ia.2, rfl⟩
    | none =>
      rcases h with h1 | h1
      · rcases ih1 h1 with ⟨i, acc, hia⟩
        rw [hia] at hrs
        exact absurd hrs (by simp)
      · rcases ih2 h1 with ⟨i, acc, hia⟩
        exact ⟨i, acc, hia⟩
  | case9 r total idx =>
    intro h
    rw [calcEntries] at h
    simp at h

theorem checkAbort_of_abortHit (clock : Nat → Obs) :
    ∀ (es : FSEntries) (total idx i acc : Nat),
      (calcEntries clock es total idx).abortHit = some (i, acc) →
      checkAbort (clock i) acc = true := by
  intro es total idx
  induction es, total, idx using calcEntries.induct clock with
  | case1 total idx => intro i acc h; simp [calcEntries] at h
  | case2 nm rest total idx ih =>
    intro i acc h
    rw [calcEntries] at h
    exact ih i acc h
  | case3 nm s rest total idx habort =>
    intro i acc h
    rw [calcEntries, if_pos habort] at h
    simp only [Option.some.injEq, Prod.mk.injEq] at h
    rw [← h.1, ← h.2]
    exact habort
  | case4 nm s rest total idx habort ih =>
    intro i acc h
    rw [calcEntries, if_neg habort] at h
    exact ih i acc h
  | case5 nm rest total idx habort =>
    intro i acc h
    rw [calcEntries, if_pos habort] at h
    simp only [Option.some.injEq, Prod.mk.injEq] at h
    rw [← h.1, ← h.2]
    exact habort
  | case6 nm rest total idx habort ih =>
    intro i acc h
    rw [calcEntries, if_neg habort] at h
    exact ih i acc h
  | case7 nm es rest total idx habort =>
    intro i acc h
    rw [calcEntries, if_pos habort] at h
    simp only [Option.some.injEq, Prod.mk.injEq] at h
    rw [← h.1, ← h.2]
    exact habort
  | case8 nm es rest total idx habort ih1 ih2 =>
    intro i acc h
    rw [calcEntries, if_neg habort] at h
    have h' : Option.orElse (calcEntries clock es 0 (idx + 1)).abortHit
        (fun _ =>
          (calcEntries clock rest (total + (calcEntries clock es 0 (idx + 1)).total)
            (calcEntries clock es 0 (idx + 1)).next).abortHit) = some (i, acc) := h
    rcases orElse_some_elim _ _ _ h' with h1 | ⟨_, h2⟩
    · exact ih1 i acc h1
    · exact ih2 i acc h2
  | case9 r total idx =>
    intro i acc h
    rw [calcEntries] at h
    simp at h

/-- C1: a directory-size computation is marked partial only because of an
abort event: a per-entry check at which the one-minute budget had elapsed,
the observed registry had this computation as the sole remaining
uncompleted target (completed count = total count - 1), and the total
accumulated so far strictly exceeded the size of the then-current top-1
registry entry.  The registry observations are required to be reachable
registry states of realistic size (fewer than `2 ^ 64` targets, the
`size_t` range).  If either registry condition fails at a check, the
enumeration continues past the budget (no other exit sets the flag). -/
theorem partial_abort_invariant (clock : Nat → Obs) (node : FSNode)
    (hreach : ∀ i, Reachable (clock i).mgr)
    (hsize : ∀ i, totalTargets (clock i).mgr < 2 ^ 64)
    (hp : (calculateDirectorySizeWithTimeout clock node).isPart = true) :
    ∃ i acc t1,
      (calculateDirectorySizeWithTimeout clock node).abortHit = some (i, acc) ∧
      timeLimitMs ≤ (clock i).elapsed ∧
      1 ≤ totalTargets (clock i).mgr ∧
      completedTargets (clock i).mgr = totalTargets (clock i).mgr - 1 ∧
      getTopN (clock i).mgr 1 = [t1] ∧
      t1.size < acc := by
  cases node with
  | file s => exact absurd hp (by simp [calculateDirectorySizeWithTimeout])
  | symlink => exact absurd hp (by simp [calculateDirectorySizeWithTimeout])
  | err => exact absurd hp (by simp [calculateDirectorySizeWithTimeout])
  | dir es =>
    rw [calculateDirectorySizeWithTimeout] at hp ⊢
    rcases abortHit_of_isPart clock es 0 0 hp with ⟨i, acc, hia⟩
    have hca := checkAbort_of_abortHit clock es 0 0 i acc hia
    rw [checkAbort, Bool.and_eq_true, decide_eq_true_iff] at hca
    rcases hca with ⟨helapsed, hcond⟩
    rw [cppAbortCond, Bool.and_eq_true, beq_iff_eq] at hcond
    rcases hcond with ⟨hcount, htop⟩
    have hle : completedTargets (clock i).mgr ≤ totalTargets (clock i).mgr :=
      reachable_completed_le _ (hreach i)
    have hbound := hsize i
    have htotal1 : 1 ≤ totalTargets (clock i).mgr := by
      rcases Nat.eq_zero_or_pos (totalTargets (clock i).mgr) with h0 | h1
      · rw [completedTargets] at hcount hle
        rw [h0] at hcount hle
        omega
      · exact h1
    have hcc : completedTargets (clock i).mgr = totalTargets (clock i).mgr - 1 := by
      rw [completedTargets] at hcount hle ⊢
      omega
    have hne : (clock i).mgr.results ≠ [] := by
      intro hnil
      rw [totalTargets, hnil] at htotal1
      simp at htotal1
    rcases getTopN_one_of_ne_nil _ hne with ⟨t1, ht1⟩
    refine ⟨i, acc, t1, hia, helapsed, htotal1, hcc, ht1, ?_⟩
    rw [ht1] at htop
    simpa using htop

/-- Witness for C1: two registered targets, one completed with size 3, the
budget elapsed; the computation passes the first check (accumulated 0 does
not beat the leader) and aborts at the second (accumulated 10 does). -/
theorem partial_abort_invariant_witness :
    ∃ i acc t1,
      (calculateDirectorySizeWithTimeout
          (fun _ => ⟨60000, update (addTarget (addTarget emptyManager [['a']]) [['b']])
            [['a']] 3 false 50⟩)
          (.dir (.cons ['x'] (.file 10) (.cons ['y'] (.file 1) .nil)))).abortHit =
        some (i, acc) ∧
      timeLimitMs ≤ (60000 : Nat) ∧
      1 ≤ totalTargets (update (addTarget (addTarget emptyManager [['a']]) [['b']])
        [['a']] 3 false 50) ∧
      completedTargets (update (addTarget (addTarget emptyManager [['a']]) [['b']])
          [['a']] 3 false 50) =
        totalTargets (update (addTarget (addTarget emptyManager [['a']]) [['b']])
          [['a']] 3 false 50) - 1 ∧
      getTopN (update (addTarget (addTarget emptyManager [['a']]) [['b']])
        [['a']] 3 false 50) 1 = [t1] ∧
      t1.size < acc :=
  partial_abort_invariant
    (fun _ => ⟨60000, update (addTarget (addTarget emptyManager [['a']]) [['b']])
      [['a']] 3 false 50⟩)
    (.dir (.cons ['x'] (.file 10) (.cons ['y'] (.file 1) .nil)))
    (fun _ => Reachable.upd _ _ _ _ _ (Reachable.add _ _ (Reachable.add _ _ Reachable.init)))
    (fun _ =>
      (by decide :
        totalTargets (update (addTarget (addTarget emptyManager [['a']]) [['b']])
          [['a']] 3 false 50) < 2 ^ 64))
    (by decide)

/-! ## Collector lemmas (C6, C8) -/

mutual
theorem collectTP_results_append :
    ∀ (node : FSNode) (comps : List (List Char)) (d mx : Int) (m : Manager),
      (collectTargetPaths node comps d mx m).results =
        m.results ++ (collectTargetPaths node comps d mx emptyManager).results
  | .file s, comps, d, mx, m => by
    simp only [collectTargetPaths]
    by_cases hg : collectGuard comps d mx = true
    · simp [hg, emptyManager]
    · by_cases ht : isTargetUnit (.file s) comps mx = true
      · simp [hg, ht, addTarget, emptyManager]
      · simp [hg, ht, emptyManager]
  | .symlink, comps, d, mx, m => by
    simp only [collectTargetPaths]
    by_cases hg : collectGuard comps d mx = true
    · simp [hg, emptyManager]
    · by_cases ht : isTargetUnit .symlink comps mx = true
      · simp [hg, ht, addTarget, emptyManager]
      · simp [hg, ht, emptyManager]
  | .err, comps, d, mx, m => by
    simp only [collectTargetPaths]
    by_cases hg : collectGuard comps d mx = true
    · simp [hg, emptyManager]
    · by_cases ht : isTargetUnit .err comps mx = true
      · simp [hg, ht, addTarget, emptyManager]
      · simp [hg, ht, emptyManager]
  | .dir es, comps, d, mx, m => by
    by_cases hg : collectGuard comps d mx = true
    · simp [collectTargetPaths, hg, emptyManager]
    · by_cases hlt : d < mx
      · have hd : decide (d < mx) = true := by simp [hlt]
        by_cases ht : isTargetUnit (.dir es) comps mx = true
        · simp only [collectTargetPaths, if_neg hg, if_pos hd, if_pos ht]
          rw [collectCh_results_append es comps d mx (addTarget m comps),
            collectCh_results_append es comps d mx (addTarget emptyManager comps)]
          simp [addTarget, emptyManager]
        · simp only [collectTargetPaths, if_neg hg, if_pos hd, if_neg ht]
          exact collectCh_results_append es comps d mx m
      · have hd : ¬ decide (d < mx) = true := by simp [hlt]
        by_cases ht : isTargetUnit (.dir es) comps mx = true
        · simp only [collectTargetPaths, if_neg hg, if_neg hd, if_pos ht]
          simp [addTarget, emptyManager]
        · simp only [collectTargetPaths, if_neg hg, if_neg hd, if_neg ht]
          simp [emptyManager]
theorem collectCh_results_append :
    ∀ (es : FSEntries) (comps : List (List Char)) (d mx : Int) (m : Manager),
      (collectChildren es comps d mx m).results =
        m.results ++ (collectChildren es comps d mx emptyManager).results
  | .nil, comps, d, mx, m => by simp [collectChildren, emptyManager]
  | .cons nm child rest, comps, d, mx, m => by
    simp only [collectChildren]
    rw [collectCh_results_append rest comps d mx
        (collectTargetPaths child (comps ++ [nm]) (d + 1) mx m),
      collectCh_results_append rest comps d mx
        (collectTargetPaths child (comps ++ [nm]) (d + 1) mx emptyManager),
      collectTP_results_append child (comps ++ [nm]) (d + 1) mx m]
    simp [emptyManager]
  | .iterErr r, comps, d, mx, m => by simp [collectChildren, emptyManager]
end

theorem newPaths_of_guard (node : FSNode) (comps : List (List Char)) (d mx : Int)
    (hg : collectGuard comps d mx = true) : newPaths node comps d mx = [] := by
  cases node <;> simp [newPaths, collectTargetPaths, hg, emptyManager]

theorem newPathsC_nil (comps : List (List Char)) (d mx : Int) :
    newPathsC .nil comps d mx = [] := by
  simp [newPathsC, collectChildren, emptyManager]

theorem newPathsC_iterErr (r : FSEntries) (comps : List (List Char)) (d mx : Int) :
    newPathsC (.iterErr r) comps d mx = [] := by
  simp [newPathsC, collectChildren, emptyManager]

theorem newPathsC_cons (nm : List Char) (child : FSNode) (rest : FSEntries)
    (comps : List (List Char)) (d mx : Int) :
    newPathsC (.cons nm child rest) comps d mx =
      newPaths child (comps ++ [nm]) (d + 1) mx ++ newPathsC rest comps d mx := by
  simp only [newPathsC, newPaths, collectChildren]
  rw [collectCh_results_append rest comps d mx
      (collectTargetPaths child (comps ++ [nm]) (d + 1) mx emptyManager)]
  simp

theorem newPaths_file (s : Nat) (comps : List (List Char)) (d mx : Int)
    (hg : collectGuard comps d mx = false) :
    newPaths (.file s) comps d mx =
      if isTargetUnit (.file s) comps mx then [comps] else [] := by
  have hg' : ¬ collectGuard comps d mx = true := by simp [hg]
  simp only [newPaths, collectTargetPaths, if_neg hg']
  by_cases ht : isTargetUnit (.file s) comps mx = true <;>
    simp [ht, addTarget, emptyManager]

theorem newPaths_symlink (comps : List (List Char)) (d mx : Int)
    (hg : collectGuard comps d mx = false) :
    newPaths .symlink comps d mx = [] := by
  have hg' : ¬ collectGuard comps d mx = true := by simp [hg]
  simp only [newPaths, collectTargetPaths, if_neg hg']
  simp [isTargetUnit, emptyManager]

theorem newPaths_err (comps : List (List Char)) (d mx : Int)
    (hg : collectGuard comps d mx = false) :
    newPaths .err comps d mx =
      if isTargetUnit .err comps mx then [comps] else [] := by
  have hg' : ¬ collectGuard comps d mx = true := by simp [hg]
  simp only [newPaths, collectTargetPaths, if_neg hg']
  by_cases ht : isTargetUnit .err comps mx = true <;>
    simp [ht, addTarget, emptyManager]

theorem newPaths_dir_deep (es : FSEntries) (comps : List (List Char)) (d mx : Int)
    (hg : collectGuard comps d mx = false) (hlt : d < mx) :
    newPaths (.dir es) comps d mx =
      (if isTargetUnit (.dir es) comps mx then [comps] else []) ++ newPathsC es comps d mx := by
  have hg' : ¬ collectGuard comps d mx = true := by simp [hg]
  have hd : decide (d < mx) = true := by simp [hlt]
  by_cases ht : isTargetUnit (.dir es) comps mx = true
  · simp only [newPaths, collectTargetPaths, if_neg hg', if_pos hd, if_pos ht]
    rw [collectCh_results_append es comps d mx (addTarget emptyManager comps)]
    simp [ht, addTarget, emptyManager, newPathsC]
  · simp only [newPaths, collectTargetPaths, if_neg hg', if_pos hd, if_neg ht]
    simp [ht, newPathsC]

theorem newPaths_dir_stop (es : FSEntries) (comps : List (List Char)) (d mx : Int)
    (hg : collectGuard comps d mx = false) (hlt : ¬ d < mx) :
    newPaths (.dir es) comps d mx =
      if isTargetUnit (.dir es) comps mx then [comps] else [] := by
  have hg' : ¬ collectGuard comps d mx = true := by simp [hg]
  have hd : ¬ decide (d < mx) = true := by simp [hlt]
  by_cases ht : isTargetUnit (.dir es) comps mx = true
  · simp only [newPaths, collectTargetPaths, if_neg hg', if_neg hd, if_pos ht]
    simp [ht, addTarget, emptyManager]
  · simp only [newPaths, collectTargetPaths, if_neg hg', if_neg hd, if_neg ht]
    simp [ht, emptyManager]

mutual
theorem newPaths_extends :
    ∀ (node : FSNode) (comps : List (List Char)) (d mx : Int) (p : List (List Char)),
      p ∈ newPaths node comps d mx → ∃ r, p = comps ++ r
  | .file s, comps, d, mx, p => by
    intro hp
    by_cases hg : collectGuard comps d mx = true
    · rw [newPaths_of_guard _ _ _ _ hg] at hp; simp at hp
    · rw [newPaths_file s comps d mx (by simpa using hg)] at hp
      split at hp <;> simp at hp
      exact ⟨[], by simp [hp]⟩
  | .symlink, comps, d, mx, p => by
    intro hp
    by_cases hg : collectGuard comps d mx = true
    · rw [newPaths_of_guard _ _ _ _ hg] at hp; simp at hp
    · rw [newPaths_symlink comps d mx (by simpa using hg)] at hp; simp at hp
  | .err, comps, d, mx, p => by
    intro hp
    by_cases hg : collectGuard comps d mx = true
    · rw [newPaths_of_guard _ _ _ _ hg] at hp; simp at hp
    · rw [newPaths_err comps d mx (by simpa using hg)] at hp
      split at hp <;> simp at hp
      exact ⟨[], by simp [hp]⟩
  | .dir es, comps, d, mx, p => by
    intro hp
    by_cases hg : collectGuard comps d mx = true
    · rw [newPaths_of_guard _ _ _ _ hg] at hp; simp at hp
    · by_cases hlt : d < mx
      · rw [newPaths_dir_deep es comps d mx (by simpa using hg) hlt] at hp
        rcases List.mem_append.mp hp with h1 | h1
        · split at h1 <;> simp at h1
          exact ⟨[], by simp [h1]⟩
        · rcases newPathsC_extends es comps d mx p h1 with ⟨nm, r, _, hpr⟩
          exact ⟨nm :: r, hpr⟩
      · rw [newPaths_dir_stop es comps d mx (by simpa using hg) hlt] at hp
        split at hp <;> simp at hp
        exact ⟨[], by simp [hp]⟩
theorem newPathsC_extends :
    ∀ (es : FSEntries) (comps : List (List Char)) (d mx : Int) (p : List (List Char)),
      p ∈ newPathsC es comps d mx →
      ∃ nm r, nm ∈ entryNames es ∧ p = comps ++ nm :: r
  | .nil, comps, d, mx, p => by
    intro hp
    rw [newPathsC_nil] at hp
    simp at hp
  | .iterErr r, comps, d, mx, p => by
    intro hp
    rw [newPathsC_iterErr] at hp
    simp at hp
  | .cons nm child rest, comps, d, mx, p => by
    intro hp
    rw [newPathsC_cons] at hp
    rcases List.mem_append.mp hp with h1 | h1
    · rcases newPaths_extends child (comps ++ [nm]) (d + 1) mx p h1 with ⟨r, hpr⟩
      exact ⟨nm, r, by simp [entryNames], by simp [hpr]⟩
    · rcases newPathsC_extends rest comps d mx p h1 with ⟨nm2, r, hmem, hpr⟩
      exact ⟨nm2, r, by simp [entryNames, hmem], hpr⟩
end

theorem collectGuard_false_excl (comps : List (List Char)) (d mx : Int)
    (hg : collectGuard comps d mx = false) : excludedCheck (pathStr comps) = false := by
  rw [collectGuard, Bool.or_eq_false_iff] at hg
  have h := hg.1
  rw [isExcludedPath] at h
  simpa using h

mutual
theorem newPaths_excl :
    ∀ (node : FSNode) (comps : List (List Char)) (d mx : Int) (p : List (List Char)),
      p ∈ newPaths node comps d mx → excludedCheck (pathStr p) = false
  | .file s, comps, d, mx, p => by
    intro hp
    by_cases hg : collectGuard comps d mx = true
    · rw [newPaths_of_guard _ _ _ _ hg] at hp; simp at hp
    · rw [newPaths_file s comps d mx (by simpa using hg)] at hp
      split at hp <;> simp at hp
      rw [hp]
      exact collectGuard_false_excl comps d mx (by simpa using hg)
  | .symlink, comps, d, mx, p => by
    intro hp
    by_cases hg : collectGuard comps d mx = true
    · rw [newPaths_of_guard _ _ _ _ hg] at hp; simp at hp
    · rw [newPaths_symlink comps d mx (by simpa using hg)] at hp; simp at hp
  | .err, comps, d, mx, p => by
    intro hp
    by_cases hg : collectGuard comps d mx = true
    · rw [newPaths_of_guard _ _ _ _ hg] at hp; simp at hp
    · rw [newPaths_err comps d mx (by simpa using hg)] at hp
      split at hp <;> simp at hp
      rw [hp]
      exact collectGuard_false_excl comps d mx (by simpa using hg)
  | .dir es, comps, d, mx, p => by
    intro hp
    by_cases hg : collectGuard comps d mx = true
    · rw [newPaths_of_guard _ _ _ _ hg] at hp; simp at hp
    · by_cases hlt : d < mx
      · rw [newPaths_dir_deep es comps d mx (by simpa using hg) hlt] at hp
        rcases List.mem_append.mp hp with h1 | h1
        · split at h1 <;> simp at h1
          rw [h1]
          exact collectGuard_false_excl comps d mx (by simpa using hg)
        · exact newPathsC_excl es comps d mx p h1
      · rw [newPaths_dir_stop es comps d mx (by simpa using hg) hlt] at hp
        split at hp <;> simp at hp
        rw [hp]
        exact collectGuard_false_excl comps d mx (by simpa using hg)
theorem newPathsC_excl :
    ∀ (es : FSEntries) (comps : List (List Char)) (d mx : Int) (p : List (List Char)),
      p ∈ newPathsC es comps d mx → excludedCheck (pathStr p) = false
  | .nil, comps, d, mx, p => by
    intro hp
    rw [newPathsC_nil] at hp
    simp at hp
  | .iterErr r, comps, d, mx, p => by
    intro hp
    rw [newPathsC_iterErr] at hp
    simp at hp
  | .cons nm child rest, comps, d, mx, p => by
    intro hp
    rw [newPathsC_cons] at hp
    rcases List.mem_append.mp hp with h1 | h1
    · exact newPaths_excl child (comps ++ [nm]) (d + 1) mx p h1
    · exact newPathsC_excl rest comps d mx p h1
end

mutual
theorem newPaths_clean :
    ∀ (node : FSNode) (comps : List (List Char)) (d mx : Int),
      WFNode node → (∀ c ∈ comps, cleanName c) →
      ∀ p ∈ newPaths node comps d mx, ∀ c ∈ p, cleanName c
  | .file s, comps, d, mx => by
    intro _ hcomps p hp
    by_cases hg : collectGuard comps d mx = true
    · rw [newPaths_of_guard _ _ _ _ hg] at hp; simp at hp
    · rw [newPaths_file s comps d mx (by simpa using hg)] at hp
      split at hp <;> simp at hp
      rw [hp]
      exact hcomps
  | .symlink, comps, d, mx => by
    intro _ hcomps p hp
    by_cases hg : collectGuard comps d mx = true
    · rw [newPaths_of_guard _ _ _ _ hg] at hp; simp at hp
    · rw [newPaths_symlink comps d mx (by simpa using hg)] at hp; simp at hp
  | .err, comps, d, mx => by
    intro _ hcomps p hp
    by_cases hg : collectGuard comps d mx = true
    · rw [newPaths_of_guard _ _ _ _ hg] at hp; simp at hp
    · rw [newPaths_err comps d mx (by simpa using hg)] at hp
      split at hp <;> simp at hp
      rw [hp]
      exact hcomps
  | .dir es, comps, d, mx => by
    intro hwf hcomps p hp
    cases hwf with
    | dir es hnodup hnames hwfes =>
      by_cases hg : collectGuard comps d mx = true
      · rw [newPaths_of_guard _ _ _ _ hg] at hp; simp at hp
      · by_cases hlt : d < mx
        · rw [newPaths_dir_deep es comps d mx (by simpa using hg) hlt] at hp
          rcases List.mem_append.mp hp with h1 | h1
          · split at h1 <;> simp at h1
            rw [h1]
            exact hcomps
          · exact newPathsC_clean es comps d mx hwfes hnames hcomps p h1
        · rw [newPaths_dir_stop es comps d mx (by simpa using hg) hlt] at hp
          split at hp <;> simp at hp
          rw [hp]
          exact hcomps
theorem newPathsC_clean :
    ∀ (es : FSEntries) (comps : List (List Char)) (d mx : Int),
      WFEntries es → (∀ nm ∈ entryNames es, cleanName nm) → (∀ c ∈ comps, cleanName c) →
      ∀ p ∈ newPathsC es comps d mx, ∀ c ∈ p, cleanName c
  | .nil, comps, d, mx => by
    intro _ _ _ p hp
    rw [newPathsC_nil] at hp
    simp at hp
  | .iterErr r, comps, d, mx => by
    intro _ _ _ p hp
    rw [newPathsC_iterErr] at hp
    simp at hp
  | .cons nm child rest, comps, d, mx => by
    intro hwf hnames hcomps p hp
    cases hwf with
    | cons nm child rest hchild hrest =>
      rw [newPathsC_cons] at hp
      rcases List.mem_append.mp hp with h1 | h1
      · refine newPaths_clean child (comps ++ [nm]) (d + 1) mx hchild ?_ p h1
        intro c hc
        rcases List.mem_append.mp hc with h2 | h2
        · exact hcomps c h2
        · rw [List.mem_singleton.mp h2]
          exact hnames nm (by simp [entryNames])
      · refine newPathsC_clean rest comps d mx hrest ?_ hcomps p h1
        intro nm2 h2
        exact hnames nm2 (by simp [entryNames, h2])
end

mutual
theorem newPaths_nodup :
    ∀ (node : FSNode) (comps : List (List Char)) (d mx : Int),
      WFNode node → (newPaths node comps d mx).Nodup
  | .file s, comps, d, mx => by
    intro _
    by_cases hg : collectGuard comps d mx = true
    · rw [newPaths_of_guard _ _ _ _ hg]; simp
    · rw [newPaths_file s comps d mx (by simpa using hg)]
      split <;> simp
  | .symlink, comps, d, mx => by
    intro _
    by_cases hg : collectGuard comps d mx = true
    · rw [newPaths_of_guard _ _ _ _ hg]; simp
    · rw [newPaths_symlink comps d mx (by simpa using hg)]; simp
  | .err, comps, d, mx => by
    intro _
    by_cases hg : collectGuard comps d mx = true
    · rw [newPaths_of_guard _ _ _ _ hg]; simp
    · rw [newPaths_err comps d mx (by simpa using hg)]
      split <;> simp
  | .dir es, comps, d, mx => by
    intro hwf
    cases hwf with
    | dir es hnodup hnames hwfes =>
      by_cases hg : collectGuard comps d mx = true
      · rw [newPaths_of_guard _ _ _ _ hg]; simp
      · by_cases hlt : d < mx
        · rw [newPaths_dir_deep es comps d mx (by simpa using hg) hlt]
          rw [List.nodup_append]
          refine ⟨?_, newPathsC_nodup es comps d mx hwfes hnodup, ?_⟩
          · split <;> simp
          · intro p hp1 hp2
            have hp : p = comps := by
              split at hp1 <;> simp at hp1
              exact hp1
            rcases newPathsC_extends es comps d mx p hp2 with ⟨nm, r, _, hpr⟩
            rw [hp] at hpr
            have := congrArg List.length hpr
            simp at this
        · rw [newPaths_dir_stop es comps d mx (by simpa using hg) hlt]
          split <;> simp
theorem newPathsC_nodup :
    ∀ (es : FSEntries) (comps : List (List Char)) (d mx : Int),
      WFEntries es → (entryNames es).Nodup → (newPathsC es comps d mx).Nodup
  | .nil, comps, d, mx => by
    intro _ _
    rw [newPathsC_nil]
    simp
  | .iterErr r, comps, d, mx => by
    intro _ _
    rw [newPathsC_iterErr]
    simp
  | .cons nm child rest, comps, d, mx => by
    intro hwf hnodup
    cases hwf with
    | cons nm child rest hchild hrest =>
      rw [entryNames, List.nodup_cons] at hnodup
      rw [newPathsC_cons, List.nodup_append]
      refine ⟨newPaths_nodup child (comps ++ [nm]) (d + 1) mx hchild,
        newPathsC_nodup rest comps d mx hrest hnodup.2, ?_⟩
      intro p hp1 hp2
      rcases newPaths_extends child (comps ++ [nm]) (d + 1) mx p hp1 with ⟨r, hpr1⟩
      rcases newPathsC_extends rest comps d mx p hp2 with ⟨nm2, r2, hmem, hpr2⟩
      rw [hpr1] at hpr2
      have heq : comps ++ nm :: r = comps ++ nm2 :: r2 := by
        rw [← hpr2]; simp
      have := List.append_cancel_left heq
      rw [List.cons.injEq] at this
      exact hnodup.1 (this.1 ▸ hmem)
end

/-- C6: after a collection run from the root on a well-formed filesystem
(distinct, clean entry names within each directory), the registry contains
at most one entry per distinct path: the list of registered paths has no
duplicates. -/
theorem collect_no_duplicate_targets (node : FSNode) (maxDepth : Int) (h : WFNode node) :
    ((collectTargetPaths node [] 0 maxDepth emptyManager).results.map (fun e => e.path)).Nodup :=
  newPaths_nodup node [] 0 maxDepth h

/-- Witness for C6 on a concrete two-level tree. -/
theorem collect_no_duplicate_targets_witness :
    ((collectTargetPaths
        (.dir (.cons ['u'] (.file 7) (.cons ['v'] (.dir (.cons ['w'] (.file 1) .nil)) .nil)))
        [] 0 2 emptyManager).results.map (fun e => e.path)).Nodup :=
  collect_no_duplicate_targets _ 2
    (WFNode.dir _ (by decide) (by decide)
      (WFEntries.cons _ _ _ (WFNode.file 7)
        (WFEntries.cons _ _ _
          (WFNode.dir _ (by decide) (by decide)
            (WFEntries.cons _ _ _ (WFNode.file 1) WFEntries.nil))
          WFEntries.nil)))

/-! ## Normalization lemmas for C8 -/

theorem cleanName_sepfree (nm : List Char) (h : cleanName nm) : ∀ c ∈ nm, isSep c = false := by
  intro c hc
  rcases h with ⟨_, hbs, hfs, _, _⟩
  have h1 : ¬ c = '\\' := fun he => hbs (he ▸ hc)
  have h2 : ¬ c = '/' := fun he => hfs (he ▸ hc)
  simp [isSep, h1, h2]

theorem splitOnSep_ne_nil : ∀ (s : List Char), splitOnSep s ≠ [] := by
  intro s
  cases s with
  | nil => simp [splitOnSep]
  | cons c r =>
    rw [splitOnSep]
    by_cases hc : isSep c = true
    · simp [hc]
    · rw [if_neg hc]
      cases hsp : splitOnSep r with
      | nil => simp
      | cons h t => simp

theorem splitOnSep_sepfree_append :
    ∀ (a s : List Char), (∀ c ∈ a, isSep c = false) →
      splitOnSep (a ++ s) = (a ++ (splitOnSep s).headI) :: (splitOnSep s).tail := by
  intro a
  induction a with
  | nil =>
    intro s _
    simp only [List.nil_append]
    cases hsp : splitOnSep s with
    | nil => exact absurd hsp (splitOnSep_ne_nil s)
    | cons h t => simp
  | cons c as ih =>
    intro s hsf
    have hc : isSep c = false := hsf c (by simp)
    rw [List.cons_append, splitOnSep, if_neg (by simp [hc])]
    rw [ih s (fun x hx => hsf x (by simp [hx]))]
    simp

theorem joinComps_cons2 (c c2 : List Char) (cs : List (List Char)) :
    joinComps (c :: c2 :: cs) = c ++ '\\' :: joinComps (c2 :: cs) := rfl

theorem joinComps_clean_split :
    ∀ (comps : List (List Char)), (∀ c ∈ comps, cleanName c) →
      (splitOnSep (joinComps comps)).filter (fun c => c ≠ []) = comps := by
  intro comps
  induction comps with
  | nil => intro _; simp [joinComps, splitOnSep]
  | cons c cs ih =>
    intro hclean
    have hc := hclean c (by simp)
    have hcne : c ≠ [] := hc.1
    cases cs with
    | nil =>
      have hsp := splitOnSep_sepfree_append c [] (cleanName_sepfree c hc)
      simp only [List.append_nil] at hsp
      rw [joinComps, hsp]
      simp [splitOnSep, hcne]
    | cons c2 cs2 =>
      rw [joinComps_cons2,
        splitOnSep_sepfree_append c ('\\' :: joinComps (c2 :: cs2)) (cleanName_sepfree c hc)]
      have hsp : splitOnSep ('\\' :: joinComps (c2 :: cs2)) =
          [] :: splitOnSep (joinComps (c2 :: cs2)) := by
        rw [splitOnSep]
        simp [isSep]
      rw [hsp]
      simp only [List.headI, List.tail, List.append_nil]
      have ih2 := ih (fun x hx => hclean x (by simp [hx]))
      simp [hcne]
      simpa using ih2

theorem ddFold_no_dotdot :
    ∀ (l acc : List (List Char)) (b : Bool), (∀ c ∈ l, c ≠ ['.', '.']) →
      ddFold b acc l = acc.reverse ++ l := by
  intro l
  induction l with
  | nil => intro acc b _; simp [ddFold]
  | cons c r ih =>
    intro acc b hnd
    simp only [ddFold]
    rw [if_neg (hnd c (by simp))]
    rw [ih (c :: acc) b (fun x hx => hnd x (by simp [hx]))]
    simp

theorem normalizeStr_pathStr (comps : List (List Char)) (h : ∀ c ∈ comps, cleanName c) :
    normalizeStr (pathStr comps) = pathStr comps := by
  rw [pathStr]
  have hred : normalizeStr ('C' :: ':' :: '\\' :: joinComps comps) =
      ['C', ':', '\\'] ++
        joinComps (ddFold true []
          (((splitOnSep (joinComps comps)).filter (fun c => c ≠ [])).filter
            (fun c => c ≠ ['.']))) := by
    simp [normalizeStr, splitOnSep, isSep]
  rw [hred, joinComps_clean_split comps h]
  have hdot : comps.filter (fun c => c ≠ ['.']) = comps := by
    rw [List.filter_eq_self]
    intro c hc
    simpa using (h c hc).2.2.2.1
  rw [hdot, ddFold_no_dotdot comps [] true (fun c hc => (h c hc).2.2.2.2)]
  simp

theorem joinComps_append_exists :
    ∀ (a b : List (List Char)), ∃ t, joinComps (a ++ b) = joinComps a ++ t := by
  intro a
  induction a with
  | nil => intro b; exact ⟨joinComps b, by simp [joinComps]⟩
  | cons c cs ih =>
    intro b
    cases cs with
    | nil =>
      cases b with
      | nil => exact ⟨[], by simp⟩
      | cons b1 bs => exact ⟨'\\' :: joinComps (b1 :: bs), by simp [joinComps_cons2, joinComps]⟩
    | cons c2 cs2 =>
      rcases ih b with ⟨t, ht⟩
      refine ⟨t, ?_⟩
      have hl : (c :: c2 :: cs2) ++ b = c :: c2 :: (cs2 ++ b) := by simp
      rw [hl, joinComps_cons2, joinComps_cons2]
      have ht' : joinComps (c2 :: (cs2 ++ b)) = joinComps (c2 :: cs2) ++ t := ht
      rw [ht']
      simp

theorem pathStr_append_exists (a b : List (List Char)) :
    ∃ t, pathStr (a ++ b) = pathStr a ++ t := by
  rcases joinComps_append_exists a b with ⟨t, ht⟩
  exact ⟨t, by simp [pathStr, ht]⟩

theorem excludedCheck_mono (e d : List (List Char))
    (he : ∀ c ∈ e, cleanName c) (hd : ∀ c ∈ d, cleanName c)
    (hext : ∃ r, d = e ++ r) (hex : excludedCheck (pathStr e) = true) :
    excludedCheck (pathStr d) = true := by
  rcases hext with ⟨r, hr⟩
  rw [excludedCheck, List.any_eq_true] at hex ⊢
  rcases hex with ⟨ex, hmem, hs⟩
  refine ⟨ex, hmem, ?_⟩
  rw [normalizeStr_pathStr e he] at hs
  rw [normalizeStr_pathStr d hd]
  rcases pathStr_append_exists e r with ⟨t, ht⟩
  rw [hr, ht]
  simp only [foldLower, List.map_append] at hs ⊢
  exact startsWithL_append_right _ _ _ hs

/-- C8: after a collection run from the root on a well-formed filesystem,
no registered target path lies under an excluded prefix, case-insensitively
after normalization: no registered path's normalized, case-folded rendering
begins with a (normalized, case-folded) deny-list entry, and no path that
extends a path rejected by the exclusion filter — the excluded path itself
or any descendant of it — is ever registered. -/
theorem collect_exclusion_invariant (node : FSNode) (maxDepth : Int) (h : WFNode node) :
    (∀ e ∈ (collectTargetPaths node [] 0 maxDepth emptyManager).results,
      ∀ ex ∈ EXCLUDED_PATHS,
        ¬ ∃ r, foldLower (normalizeStr (pathStr e.path)) = foldLower (normalizeStr ex) ++ r) ∧
    (∀ (ecomps : List (List Char)) (e : PathSizeInfo),
      isExcludedPath false (pathStr ecomps) = true →
      e ∈ (collectTargetPaths node [] 0 maxDepth emptyManager).results →
      ¬ ∃ r, e.path = ecomps ++ r) := by
  have hmem : ∀ e ∈ (collectTargetPaths node [] 0 maxDepth emptyManager).results,
      e.path ∈ newPaths node [] 0 maxDepth := by
    intro e he
    exact List.mem_map_of_mem _ he
  constructor
  · intro e he ex hexmem hcontra
    have hexcl := newPaths_excl node [] 0 maxDepth e.path (hmem e he)
    rcases hcontra with ⟨r, hr⟩
    rw [normalizeStr_excluded_fixed ex hexmem] at hr
    have htrue : excludedCheck (pathStr e.path) = true := by
      rw [excludedCheck, List.any_eq_true]
      exact ⟨ex, hexmem, (startsWithL_iff _ _).mpr ⟨r, hr⟩⟩
    rw [htrue] at hexcl
    exact absurd hexcl (by simp)
  · intro ecomps e hex he hcontra
    rcases hcontra with ⟨r, hr⟩
    have hexcl := newPaths_excl node [] 0 maxDepth e.path (hmem e he)
    have hclean := newPaths_clean node [] 0 maxDepth h (by simp) e.path (hmem e he)
    have hecl : ∀ c ∈ ecomps, cleanName c := by
      intro c hc
      refine hclean c ?_
      rw [hr]
      exact List.mem_append_left r hc
    have hex' : excludedCheck (pathStr ecomps) = true := by
      rw [isExcludedPath] at hex
      simpa using hex
    have htrue := excludedCheck_mono ecomps e.path hecl hclean ⟨r, hr⟩ hex'
    rw [htrue] at hexcl
    exact absurd hexcl (by simp)

/-- Witness for C8 on a concrete tree containing a `Windows` subtree. -/
theorem collect_exclusion_invariant_witness :
    (∀ e ∈ (collectTargetPaths
        (.dir (.cons "u".data (.file 7)
          (.cons "Windows".data (.dir (.cons "z".data (.file 2) .nil)) .nil)))
        [] 0 2 emptyManager).results,
      ∀ ex ∈ EXCLUDED_PATHS,
        ¬ ∃ r, foldLower (normalizeStr (pathStr e.path)) = foldLower (normalizeStr ex) ++ r) ∧
    (∀ (ecomps : List (List Char)) (e : PathSizeInfo),
      isExcludedPath false (pathStr ecomps) = true →
      e ∈ (collectTargetPaths
        (.dir (.cons "u".data (.file 7)
          (.cons "Windows".data (.dir (.cons "z".data (.file 2) .nil)) .nil)))
        [] 0 2 emptyManager).results →
      ¬ ∃ r, e.path = ecomps ++ r) :=
  collect_exclusion_invariant _ 2
    (WFNode.dir _ (by decide) (by decide)
      (WFEntries.cons _ _ _ (WFNode.file 7)
        (WFEntries.cons _ _ _
          (WFNode.dir _ (by decide) (by decide)
            (WFEntries.cons _ _ _ (WFNode.file 2) WFEntries.nil))
          WFEntries.nil)))

end DiskWiz
